import Mathlib

/-!
Verification of the version/combination-matrix generator (`example/versions.py`).

The Python module builds, from a static version catalog (`sw_versions`),
per-axis lists of (name, version/state) pairs and Cartesian-product
combination matrices over backend state lists.  The definitions below are a
shallow embedding of that module: Python lists become Lean lists, the
mutating `append` loops become `foldl` with `++ [x]`, dictionary lookup
becomes lookup in an association list, and the one fallible entry point
(`get_sw_tuple_list`, whose subscript raises `KeyError` on an unknown axis)
returns `Except` carrying the offending axis name.
-/

/-- Modelled from the spec: the software-axis identifier constants imported by
the source from the external modules `alpaka_job_coverage.globals` and
`example_globals` (not part of this repository's core).  The spec only
requires them to be mutually distinct, stable identifiers, so they are
embedded as distinct string literals. -/
def GCC : String := "GCC"

def CLANG : String := "CLANG"

def CLANG_CUDA : String := "CLANG_CUDA"

def NVCC : String := "NVCC"

def HIPCC : String := "HIPCC"

def BACKENDS : String := "BACKENDS"

def UBUNTU : String := "UBUNTU"

def CMAKE : String := "CMAKE"

def BOOST : String := "BOOST"

def ALPAKA : String := "ALPAKA"

def CXX_STANDARD : String := "CXX_STANDARD"

def ALPAKA_ACC_CPU_B_SEQ_T_SEQ_ENABLE : String := "ALPAKA_ACC_CPU_B_SEQ_T_SEQ_ENABLE"

def ALPAKA_ACC_CPU_B_OMP2_T_SEQ_ENABLE : String := "ALPAKA_ACC_CPU_B_OMP2_T_SEQ_ENABLE"

def ALPAKA_ACC_GPU_CUDA_ENABLE : String := "ALPAKA_ACC_GPU_CUDA_ENABLE"

def ALPAKA_ACC_GPU_HIP_ENABLE : String := "ALPAKA_ACC_GPU_HIP_ENABLE"

/-- Modelled from the spec: the `Off` state sentinel from the external
constants module. -/
def OFF : String := "OFF"

/-- Modelled from the spec: the `On` state sentinel from the external
constants module. -/
def ON : String := "ON"

/-- A `Tuple[str, str]` of the source: a (software name, version/state) pair. -/
abbrev SwTuple := String × String

/-- The `sw_versions` dictionary of the source, as an association list in the
source's insertion order. -/
def sw_versions : List (String × List String) :=
  [(GCC, ["5", "6", "7", "8", "9", "10", "11"]),
   (CLANG, ["6.0", "7", "8", "9", "10", "11", "12", "13", "14", "15"]),
   (NVCC, ["10.0", "11.0", "11.1", "11.2", "11.3", "11.4", "11.5", "11.6"]),
   (HIPCC, ["4.3", "4.5", "5.0", "5.1"]),
   (BACKENDS,
    [ALPAKA_ACC_CPU_B_SEQ_T_SEQ_ENABLE,
     ALPAKA_ACC_CPU_B_OMP2_T_SEQ_ENABLE,
     ALPAKA_ACC_GPU_CUDA_ENABLE,
     ALPAKA_ACC_GPU_HIP_ENABLE]),
   (UBUNTU, ["18.04", "20.04"]),
   (CMAKE, ["3.18.6", "3.19.8", "3.20.6", "3.21.6", "3.22.3"]),
   (BOOST, ["1.66.0", "1.67.0", "1.74.0", "1.75.0", "1.76.0", "1.77.0", "1.78.0"]),
   (ALPAKA, ["0.6.0", "0.6.1", "0.7.0", "0.8.0", "0.9.0", "develop"]),
   (CXX_STANDARD, ["14", "17", "20"])]

/-- Python dictionary lookup `sw_versions.get(name)`: `none` when the key is
absent. -/
def sw_versions_lookup (name : String) : Option (List String) :=
  (sw_versions.find? (fun p => p.1 == name)).map (fun p => p.2)

/-- The subscript `sw_versions[name]` at a call site whose key is known to be
present in the catalog (every internal call of the source uses a literal
constant that is a key of `sw_versions`). -/
def sw_versions_at (name : String) : List String :=
  (sw_versions_lookup name).getD []

/-- `get_compiler_versions` of the source: for each compiler family in
`[GCC, CLANG, NVCC, HIPCC]` and each catalog version, append the
(name, version) pair; when `clang_cuda` is set and the family is `CLANG`,
additionally append the `(CLANG_CUDA, version)` pair right away. -/
def get_compiler_versions (clang_cuda : Bool := true) : List SwTuple :=
  [GCC, CLANG, NVCC, HIPCC].foldl
    (fun compilers compiler_name =>
      (sw_versions_at compiler_name).foldl
        (fun compilers version =>
          let compilers := compilers ++ [(compiler_name, version)]
          if clang_cuda && compiler_name == CLANG then
            compilers ++ [(CLANG_CUDA, version)]
          else
            compilers)
        compilers)
    []

/-- `get_backend_versions` of the source: one state list per backend of the
catalog, starting with `(backend, OFF)`, followed by the NVCC versions for the
CUDA backend, the HIPCC versions for the HIP backend, and `(backend, ON)`
otherwise. -/
def get_backend_versions : List (List SwTuple) :=
  (sw_versions_at BACKENDS).foldl
    (fun backends backend_name =>
      let backend_list := [(backend_name, OFF)]
      let backend_list :=
        if backend_name == ALPAKA_ACC_GPU_CUDA_ENABLE then
          (sw_versions_at NVCC).foldl
            (fun backend_list version => backend_list ++ [(backend_name, version)])
            backend_list
        else if backend_name == ALPAKA_ACC_GPU_HIP_ENABLE then
          (sw_versions_at HIPCC).foldl
            (fun backend_list version => backend_list ++ [(backend_name, version)])
            backend_list
        else
          backend_list ++ [(backend_name, ON)]
      backends ++ [backend_list])
    []

/-- `create_combination_matrix` of the source.  Python mutation is embedded by
value passing: `current_combination[:]` followed by `.append(version)` becomes
`current_combination ++ [version]`, and appending a finished combination to
the output parameter becomes returning `combination_matrix ++ [...]`. -/
def create_combination_matrix (index : Nat) (current_combination : List SwTuple)
    (input_list : List (List SwTuple)) (combination_matrix : List (List SwTuple)) :
    List (List SwTuple) :=
  if h : index < input_list.length then
    (input_list.get ⟨index, h⟩).foldl
      (fun combination_matrix version =>
        create_combination_matrix (index + 1) (current_combination ++ [version])
          input_list combination_matrix)
      combination_matrix
  else
    combination_matrix ++ [current_combination]
termination_by input_list.length - index
decreasing_by omega

/-- `get_backend_combination_matrix` of the source. -/
def get_backend_combination_matrix : List (List SwTuple) :=
  create_combination_matrix 0 [] get_backend_versions []

/-- `get_backend_single_matrix` of the source: the all-CPU-backends-on pair
first, then one single-entry combination per NVCC version, then one per HIPCC
version. -/
def get_backend_single_matrix : List (List SwTuple) :=
  let combination_matrix : List (List SwTuple) := []
  let combination_matrix := combination_matrix ++
    [[(ALPAKA_ACC_CPU_B_SEQ_T_SEQ_ENABLE, ON),
      (ALPAKA_ACC_CPU_B_OMP2_T_SEQ_ENABLE, ON)]]
  let combination_matrix := (sw_versions_at NVCC).foldl
    (fun combination_matrix cuda_version =>
      combination_matrix ++ [[(ALPAKA_ACC_GPU_CUDA_ENABLE, cuda_version)]])
    combination_matrix
  let combination_matrix := (sw_versions_at HIPCC).foldl
    (fun combination_matrix rocm_version =>
      combination_matrix ++ [[(ALPAKA_ACC_GPU_HIP_ENABLE, rocm_version)]])
    combination_matrix
  combination_matrix

/-- `get_sw_tuple_list` of the source.  The subscript `sw_versions[name]`
raises `KeyError(name)` in Python when `name` is not a catalog key; this is
embedded as `Except.error name`. -/
def get_sw_tuple_list (name : String) : Except String (List SwTuple) :=
  match sw_versions_lookup name with
  | none => Except.error name
  | some versions =>
      Except.ok (versions.foldl (fun tuple_list version => tuple_list ++ [(name, version)]) [])

/-- The Cartesian product over an ordered list of axis state sequences, written
as the spec describes it (section 4.2): nested iteration with the outermost
loop over axis 0 (first axis varying slowest), each combination taking its
element at position `i` from the `i`-th input sequence.  Used as the
specification-side description that `create_combination_matrix` is compared
against. -/
def nested_product : List (List SwTuple) → List (List SwTuple)
  | [] => [[]]
  | axis :: rest => axis.flatMap (fun x => (nested_product rest).map (fun c => x :: c))

/-- A heap of Python list objects: addresses mapped to their current contents,
together with a fresh-allocation counter.  It embeds the mutation and aliasing
behaviour of the source: `current_combination[:]` is a fresh allocation,
`.append` is an in-place overwrite of one address. -/
structure Store where
  mem : Nat → List SwTuple
  next : Nat

/-- Allocate a fresh list object holding `v` and return its address. -/
def Store.alloc (s : Store) (v : List SwTuple) : Nat × Store :=
  (s.next, ⟨fun a => if a = s.next then v else s.mem a, s.next + 1⟩)

/-- Overwrite the list object at address `a`. -/
def Store.write (s : Store) (a : Nat) (v : List SwTuple) : Store :=
  ⟨fun b => if b = a then v else s.mem b, s.next⟩

/-- The loop body prefix of the source:
`current_combination_copy = current_combination[:]` (a fresh copy) followed by
`current_combination_copy.append(version)` (in-place append to the copy).
Returns the copy's address and the updated store. -/
def copy_append (s : Store) (current_combination : Nat) (version : SwTuple) :
    Nat × Store :=
  let copy := s.alloc (s.mem current_combination)
  (copy.1, copy.2.write copy.1 (copy.2.mem copy.1 ++ [version]))

/-- Store-level embedding of `create_combination_matrix`, keeping Python's
reference semantics explicit: `current_combination` is the address of a list
object, `input_list` holds the addresses of the axis state lists, and the
output matrix collects the addresses of the emitted combination objects. -/
def create_combination_matrix_store (index : Nat) (current_combination : Nat)
    (input_list : List Nat) (combination_matrix : List Nat) (s : Store) :
    List Nat × Store :=
  if h : index < input_list.length then
    (s.mem (input_list.get ⟨index, h⟩)).foldl
      (fun (acc : List Nat × Store) version =>
        let c := copy_append acc.2 current_combination version
        create_combination_matrix_store (index + 1) c.1 input_list acc.1 c.2)
      (combination_matrix, s)
  else
    (combination_matrix ++ [current_combination], s)
termination_by input_list.length - index
decreasing_by omega

/-- A concrete two-object store (a one-pair current combination at address 0
and a two-state axis list at address 1) used to instantiate the frame
theorem. -/
def demo_store : Store :=
  ⟨fun a =>
    if a = 0 then [(GCC, "5")]
    else if a = 1 then [(CLANG, "7"), (CLANG, "8")]
    else [], 2⟩

theorem copy_append_next (s : Store) (cc : Nat) (v : SwTuple) :
    (copy_append s cc v).2.next = s.next + 1 := rfl

theorem copy_append_mem (s : Store) (cc : Nat) (v : SwTuple) (a : Nat)
    (ha : a < s.next) : (copy_append s cc v).2.mem a = s.mem a := by
  simp [copy_append, Store.alloc, Store.write, Nat.ne_of_lt ha]

/-- Unfolding of `create_combination_matrix`: on any arguments it appends to
`combination_matrix` the Cartesian product of the axis sequences from
position `index` on, each combination prefixed by `current_combination`. -/
theorem create_combination_matrix_spec (n : Nat) :
    ∀ (input_list : List (List SwTuple)) (index : Nat)
      (current_combination : List SwTuple) (combination_matrix : List (List SwTuple)),
    input_list.length - index = n →
    create_combination_matrix index current_combination input_list combination_matrix
      = combination_matrix ++
        (nested_product (input_list.drop index)).map
          (fun c => current_combination ++ c) := by
  induction n with
  | zero =>
    intro input_list index cur matrix hn
    have hge : input_list.length ≤ index := by omega
    rw [create_combination_matrix.eq_def, dif_neg (by omega)]
    rw [List.drop_eq_nil_of_le hge]
    simp [nested_product]
  | succ m ih =>
    intro input_list index cur matrix hn
    have hlt : index < input_list.length := by omega
    rw [create_combination_matrix.eq_def, dif_pos hlt]
    have hfold : ∀ (xs : List SwTuple) (matrix : List (List SwTuple)),
        xs.foldl
          (fun combination_matrix version =>
            create_combination_matrix (index + 1) (cur ++ [version])
              input_list combination_matrix)
          matrix
          = matrix ++ xs.flatMap
              (fun v => (nested_product (input_list.drop (index + 1))).map
                (fun c => cur ++ v :: c)) := by
      intro xs
      induction xs with
      | nil => intro matrix; simp
      | cons v rest ihx =>
        intro matrix
        rw [List.foldl_cons, ihx, ih input_list (index + 1) (cur ++ [v]) matrix (by omega)]
        simp [List.append_assoc]
    rw [hfold]
    rw [List.drop_eq_getElem_cons hlt]
    simp [nested_product, List.map_flatMap, List.map_map, Function.comp_def]

theorem nested_product_length (l : List (List SwTuple)) :
    (nested_product l).length = (l.map List.length).prod := by
  induction l with
  | nil => simp [nested_product]
  | cons axis rest ih =>
    simp [nested_product, List.length_flatMap, ih, Function.comp_def,
      List.map_const', List.sum_replicate, smul_eq_mul]

theorem nested_product_nodup (l : List (List SwTuple)) (h : ∀ s ∈ l, s.Nodup) :
    (nested_product l).Nodup := by
  induction l with
  | nil => simp [nested_product]
  | cons axis rest ih =>
    rw [nested_product]
    apply List.nodup_flatMap.mpr
    refine ⟨fun x _ => ?_, ?_⟩
    · exact (ih (fun s hs => h s (List.mem_cons_of_mem _ hs))).map
        (fun c₁ c₂ hc => by injection hc)
    · have haxis : axis.Nodup := h axis (List.mem_cons_self axis rest)
      refine haxis.imp ?_
      intro a b hab
      intro x hxa hxb
      rcases List.mem_map.mp hxa with ⟨c₁, _, rfl⟩
      rcases List.mem_map.mp hxb with ⟨c₂, _, he⟩
      exact hab (List.cons.inj he.symm).1

/-- Frame property of the store-level run: no object allocated before the call
is ever written (only fresh copies are), and the allocation counter only
grows. -/
theorem create_combination_matrix_store_frame (n : Nat) :
    ∀ (input_list : List Nat) (index current_combination : Nat)
      (combination_matrix : List Nat) (s : Store),
    input_list.length - index = n →
    s.next ≤ (create_combination_matrix_store index current_combination input_list
        combination_matrix s).2.next ∧
    ∀ a, a < s.next →
      (create_combination_matrix_store index current_combination input_list
          combination_matrix s).2.mem a = s.mem a := by
  induction n with
  | zero =>
    intro input_list index cc matrix s hn
    rw [create_combination_matrix_store.eq_def, dif_neg (by omega)]
    exact ⟨le_refl _, fun a _ => rfl⟩
  | succ m ih =>
    intro input_list index cc matrix s hn
    have hlt : index < input_list.length := by omega
    rw [create_combination_matrix_store.eq_def, dif_pos hlt]
    have hfold : ∀ (xs : List SwTuple) (p : List Nat × Store),
        p.2.next ≤ (xs.foldl
            (fun (acc : List Nat × Store) version =>
              let c := copy_append acc.2 cc version
              create_combination_matrix_store (index + 1) c.1 input_list acc.1 c.2)
            p).2.next ∧
        ∀ a, a < p.2.next →
          (xs.foldl
            (fun (acc : List Nat × Store) version =>
              let c := copy_append acc.2 cc version
              create_combination_matrix_store (index + 1) c.1 input_list acc.1 c.2)
            p).2.mem a = p.2.mem a := by
      intro xs
      induction xs with
      | nil => intro p; exact ⟨le_refl _, fun a _ => rfl⟩
      | cons v rest ihx =>
        intro p
        rw [List.foldl_cons]
        have h1 := ih input_list (index + 1) (copy_append p.2 cc v).1 p.1
          (copy_append p.2 cc v).2 (by omega)
        have h2 := ihx (create_combination_matrix_store (index + 1)
          (copy_append p.2 cc v).1 input_list p.1 (copy_append p.2 cc v).2)
        have hnext : p.2.next + 1
            ≤ (create_combination_matrix_store (index + 1) (copy_append p.2 cc v).1
                input_list p.1 (copy_append p.2 cc v).2).2.next := by
          have := h1.1
          rw [copy_append_next] at this
          exact this
        constructor
        · exact le_trans (by omega) (le_trans hnext h2.1)
        · intro a ha
          rw [h2.2 a (by omega), h1.2 a (by rw [copy_append_next]; omega),
            copy_append_mem p.2 cc v a ha]
    exact hfold _ (matrix, s)

/-- Claim C1: for every list of axis state sequences, the combination matrix
produced by `create_combination_matrix` (index 0, empty partial combination,
empty output) has length equal to the product of the lengths of the input
sequences; in particular, if any input sequence is empty, the matrix is
empty. -/
theorem create_combination_matrix_size (input_list : List (List SwTuple)) :
    (create_combination_matrix 0 [] input_list []).length
      = (input_list.map List.length).prod ∧
    ([] ∈ input_list → create_combination_matrix 0 [] input_list [] = []) := by
  have h := create_combination_matrix_spec input_list.length input_list 0 [] [] (by omega)
  rw [List.drop_zero] at h
  constructor
  · rw [h]; simp [nested_product_length]
  · intro hmem
    have h0 : (0 : Nat) ∈ input_list.map List.length :=
      List.mem_map.mpr ⟨[], hmem, rfl⟩
    have hlen : (create_combination_matrix 0 [] input_list []).length = 0 := by
      rw [h]; simp [nested_product_length, List.prod_eq_zero h0]
    exact List.length_eq_zero.mp hlen

/-- Witness for C1 at a concrete input containing an empty axis sequence. -/
theorem create_combination_matrix_size_witness :
    ([] ∈ ([[], [(GCC, "5")]] : List (List SwTuple))) ∧
    create_combination_matrix 0 [] [[], [(GCC, "5")]] [] = [] :=
  ⟨by simp, (create_combination_matrix_size [[], [(GCC, "5")]]).2 (by simp)⟩

/-- Claim C2: the combinations emitted by `create_combination_matrix` appear
in the nested-iteration order with the first axis varying slowest: the result
equals `nested_product`, the direct transcription of nested loops whose
outermost loop ranges over the first input sequence and where each
combination takes its element at position `i` from the `i`-th input
sequence. -/
theorem create_combination_matrix_eq_nested_product
    (input_list : List (List SwTuple)) :
    create_combination_matrix 0 [] input_list [] = nested_product input_list := by
  have h := create_combination_matrix_spec input_list.length input_list 0 [] [] (by omega)
  simpa using h

/-- Claim C3: `get_backend_versions` returns, for every backend of the catalog
in catalog order, one state sequence starting with `(backend, OFF)`, followed
for the CUDA backend by the NVCC catalog versions in order, for the HIP
backend by the HIPCC catalog versions in order, and for every other backend
by exactly one further entry `(backend, ON)`. -/
theorem get_backend_versions_shape :
    get_backend_versions
      = (sw_versions_at BACKENDS).map
          (fun b => (b, OFF) ::
            (if b = ALPAKA_ACC_GPU_CUDA_ENABLE then
               (sw_versions_at NVCC).map (fun v => (b, v))
             else if b = ALPAKA_ACC_GPU_HIP_ENABLE then
               (sw_versions_at HIPCC).map (fun v => (b, v))
             else [(b, ON)])) := by decide

/-- Claim C4: in `get_compiler_versions` with the derived-variant flag set,
for every version of the CLANG family the derived entry `(CLANG_CUDA, v)`
occupies the position immediately after the base entry `(CLANG, v)` (at every
occurrence of the base entry), not batched at the end. -/
theorem get_compiler_versions_clang_cuda_adjacent (v : String)
    (hv : v ∈ sw_versions_at CLANG) :
    (∃ i, (get_compiler_versions true)[i]? = some (CLANG, v) ∧
          (get_compiler_versions true)[i + 1]? = some (CLANG_CUDA, v)) ∧
    (∀ i, (get_compiler_versions true)[i]? = some (CLANG, v) →
          (get_compiler_versions true)[i + 1]? = some (CLANG_CUDA, v)) := by
  have key : ∀ i, i < (get_compiler_versions true).length →
      (((get_compiler_versions true)[i]?).all
        (fun p => !(p.1 == CLANG)
          || ((get_compiler_versions true)[i + 1]? == some (CLANG_CUDA, p.2))) = true) := by
    decide
  have hadj : ∀ i, (get_compiler_versions true)[i]? = some (CLANG, v) →
      (get_compiler_versions true)[i + 1]? = some (CLANG_CUDA, v) := by
    intro i hi
    have hlen : i < (get_compiler_versions true).length :=
      (List.getElem?_eq_some_iff.mp hi).1
    have hk := key i hlen
    rw [hi] at hk
    simpa using hk
  refine ⟨?_, hadj⟩
  have hcov : ∀ w ∈ sw_versions_at CLANG, (CLANG, w) ∈ get_compiler_versions true := by
    decide
  rcases List.mem_iff_getElem?.mp (hcov v hv) with ⟨i, hi⟩
  exact ⟨i, hi, hadj i hi⟩

/-- Witness for C4 at the concrete CLANG version 14. -/
theorem get_compiler_versions_clang_cuda_adjacent_witness :
    ("14" ∈ sw_versions_at CLANG) ∧
    (∃ i, (get_compiler_versions true)[i]? = some (CLANG, "14") ∧
          (get_compiler_versions true)[i + 1]? = some (CLANG_CUDA, "14")) :=
  ⟨by decide, (get_compiler_versions_clang_cuda_adjacent "14" (by decide)).1⟩

/-- Claim C5: requesting an axis identifier absent from the version catalog
via `get_sw_tuple_list` fails with an error naming the identifier (the
`KeyError` of the Python subscript, the spec's MissingAxisError); it never
returns a sequence, empty or otherwise, for an unknown axis. -/
theorem get_sw_tuple_list_missing_axis (name : String)
    (h : sw_versions_lookup name = none) :
    get_sw_tuple_list name = Except.error name ∧
    ∀ l : List SwTuple, get_sw_tuple_list name ≠ Except.ok l := by
  refine ⟨?_, ?_⟩ <;> simp [get_sw_tuple_list, h]

/-- Witness for C5 at the concrete unknown axis name of the spec scenario. -/
theorem get_sw_tuple_list_missing_axis_witness :
    sw_versions_lookup "UNKNOWN_AXIS" = none ∧
    get_sw_tuple_list "UNKNOWN_AXIS" = Except.error "UNKNOWN_AXIS" :=
  ⟨by decide, (get_sw_tuple_list_missing_axis "UNKNOWN_AXIS" (by decide)).1⟩

/-- Claim C6: `get_backend_single_matrix` consists of exactly one combination
turning on both CPU-only backends simultaneously, then one single-pair
combination per NVCC catalog version, then one per HIPCC catalog version, in
catalog order, for a total of `1 + |NVCC versions| + |HIPCC versions|`
combinations. -/
theorem get_backend_single_matrix_shape :
    get_backend_single_matrix
      = [[(ALPAKA_ACC_CPU_B_SEQ_T_SEQ_ENABLE, ON),
          (ALPAKA_ACC_CPU_B_OMP2_T_SEQ_ENABLE, ON)]]
          ++ (sw_versions_at NVCC).map (fun v => [(ALPAKA_ACC_GPU_CUDA_ENABLE, v)])
          ++ (sw_versions_at HIPCC).map (fun v => [(ALPAKA_ACC_GPU_HIP_ENABLE, v)]) ∧
    get_backend_single_matrix.length
      = 1 + (sw_versions_at NVCC).length + (sw_versions_at HIPCC).length := by
  decide

/-- Claim C7: when every input axis sequence has pairwise-distinct entries,
all combinations produced by `create_combination_matrix` are pairwise
distinct as ordered tuples. -/
theorem create_combination_matrix_nodup (input_list : List (List SwTuple))
    (h : ∀ s ∈ input_list, s.Nodup) :
    (create_combination_matrix 0 [] input_list []).Nodup := by
  have hs := create_combination_matrix_spec input_list.length input_list 0 [] [] (by omega)
  rw [List.drop_zero] at hs
  rw [hs]
  simpa using nested_product_nodup input_list h

/-- Witness for C7 at a concrete duplicate-free axis sequence. -/
theorem create_combination_matrix_nodup_witness :
    (create_combination_matrix 0 [] [[(GCC, "5"), (GCC, "6")]] []).Nodup :=
  create_combination_matrix_nodup [[(GCC, "5"), (GCC, "6")]] (by decide)

/-- Claim C8: calling `create_combination_matrix` with an empty list of axis
sequences (and empty partial combination and output) yields the one-element
matrix containing the empty combination. -/
theorem create_combination_matrix_empty_input :
    create_combination_matrix 0 [] [] [] = [[]] := by
  have h := create_combination_matrix_spec 0 [] 0 [] [] rfl
  simpa [nested_product] using h

/-- Claim C9: in the store-level embedding, `create_combination_matrix` never
writes to any pre-existing object: the current-combination object and every
axis-list object of `input_list` hold exactly their original contents after
the call (each branch works on an independent fresh copy). -/
theorem create_combination_matrix_preserves_inputs
    (index current_combination : Nat) (input_list : List Nat)
    (combination_matrix : List Nat) (s : Store)
    (hcc : current_combination < s.next) (hin : ∀ a ∈ input_list, a < s.next) :
    (create_combination_matrix_store index current_combination input_list
        combination_matrix s).2.mem current_combination
      = s.mem current_combination ∧
    ∀ a ∈ input_list,
      (create_combination_matrix_store index current_combination input_list
          combination_matrix s).2.mem a = s.mem a := by
  have h := create_combination_matrix_store_frame (input_list.length - index)
    input_list index current_combination combination_matrix s rfl
  exact ⟨h.2 _ hcc, fun a ha => h.2 a (hin a ha)⟩

/-- Witness for C9 on a concrete two-object store. -/
theorem create_combination_matrix_preserves_inputs_witness :
    (0 < demo_store.next ∧ ∀ a ∈ [1], a < demo_store.next) ∧
    ((create_combination_matrix_store 0 0 [1] [] demo_store).2.mem 0
        = demo_store.mem 0 ∧
     ∀ a ∈ [1],
       (create_combination_matrix_store 0 0 [1] [] demo_store).2.mem a
         = demo_store.mem a) :=
  ⟨⟨by decide, by decide⟩,
   create_combination_matrix_preserves_inputs 0 0 [1] [] demo_store
     (by decide) (by decide)⟩

/-- Claim C10: `create_combination_matrix` is append-only on its output
parameter: combinations already present in `combination_matrix` are preserved
unchanged in their original positions and the newly generated combinations
follow them. -/
theorem create_combination_matrix_append_only (index : Nat)
    (current_combination : List SwTuple) (input_list : List (List SwTuple))
    (combination_matrix : List (List SwTuple)) :
    create_combination_matrix index current_combination input_list combination_matrix
      = combination_matrix ++
        create_combination_matrix index current_combination input_list [] := by
  rw [create_combination_matrix_spec (input_list.length - index) input_list index
        current_combination combination_matrix rfl,
      create_combination_matrix_spec (input_list.length - index) input_list index
        current_combination [] rfl]
  simp
